import Mathlib

/-!
Verification development for the MamoraBot trading engine.

Shallow embedding of the JavaScript sources:
* `src/engine/indicators/index.js`  — streaming indicators (EMA, RSI, ATR,
  BollingerBands, VWAP)
* `src/engine/StrategyEngine.js`    — strategy registry, EMA-crossover strategy,
  `evaluateStrategies`
* `src/engine/Scheduler.js`         — candle-boundary scheduler
* `src/workers/indicators.worker.js`— candle builder, timeframe table
* `src/data/websocketClient.js`     — clock synchronisation

JavaScript numbers are modelled as rationals (`ℚ`); the arithmetic appearing in
the verified claims (additions, subtractions, multiplications, divisions,
comparisons, max/min) is exact on the inputs considered, so `ℚ` is a faithful
model.  Epoch-millisecond timestamps handled by the worker are modelled as `Nat`
(they are non-negative); the scheduler's boundary arithmetic is modelled on `Int`
with `Int.tmod`, which matches the sign behaviour of the JavaScript `%` operator.
`Math.sqrt` (used only by BollingerBands for the returned band object, never for
its state) is modelled as an explicit function parameter.
-/

namespace Mamora

/-- A price tick, `{symbol, ts, price}` (`src/data/websocketClient.js`,
`processTick`).  Timestamps are epoch milliseconds. -/
structure Tick where
  symbol : String
  ts : Nat
  price : ℚ
  deriving Repr, DecidableEq

/-- An OHLC candle as produced by `IndicatorWorker.createNewCandle`
(`src/workers/indicators.worker.js` lines 103-116). -/
structure Candle where
  symbol : String
  frame : String
  open_ : ℚ
  high : ℚ
  low : ℚ
  close : ℚ
  ts_open : Nat
  ts_close : Nat
  volume : Nat
  tickCount : Nat
  deriving Repr, DecidableEq

/-! ### EMA (`src/engine/indicators/index.js` lines 3-26) -/

/-- State of the `EMA` class: `period`, `multiplier = 2/(period+1)`, and the
running value `ema` (`null` before the first update). -/
structure EMA where
  period : ℚ
  multiplier : ℚ
  ema : Option ℚ
  deriving Repr, DecidableEq

/-- The `EMA` constructor. -/
def EMA.init (period : ℚ) : EMA :=
  { period := period, multiplier := 2 / (period + 1), ema := none }

/-- `EMA.prototype.update` (lines 10-17): first update seeds `ema = price`,
subsequent updates blend; the new value is returned (never `null`). -/
def EMA.update (s : EMA) (price : ℚ) : EMA × ℚ :=
  match s.ema with
  | none => ({ s with ema := some price }, price)
  | some e =>
      let v := price * s.multiplier + e * (1 - s.multiplier)
      ({ s with ema := some v }, v)

/-- `EMA.prototype.getValue` (lines 19-21). -/
def EMA.getValue (s : EMA) : Option ℚ := s.ema

/-- `EMA.prototype.reset` (lines 23-25): only clears `ema`. -/
def EMA.reset (s : EMA) : EMA := { s with ema := none }

/-! ### RSI (`src/engine/indicators/index.js` lines 28-82) -/

/-- State of the `RSI` class: bounded gain/loss windows and the last priceseen.
Note the source's `update` returns early from the full-window branch without
executing `this.lastPrice = price`, so `lastPrice` freezes once the window is
full; the embedding reproduces this. -/
structure RSI where
  period : Nat
  gains : List ℚ
  losses : List ℚ
  lastPrice : Option ℚ
  deriving Repr, DecidableEq

/-- The `RSI` constructor (default period 14). -/
def RSI.init (period : Nat) : RSI :=
  { period := period, gains := [], losses := [], lastPrice := none }

/-- The RSI formula computed in the full-window branch of `update`
(lines 51-57): `100 - 100/(1 + avgGain/avgLoss)`, with `avgLoss = 0 ↦ 100`. -/
def rsiValue (gains losses : List ℚ) (period : Nat) : ℚ :=
  let avgGain := gains.sum / (period : ℚ)
  let avgLoss := losses.sum / (period : ℚ)
  if avgLoss = 0 then 100
  else
    let rs := avgGain / avgLoss
    100 - (100 / (1 + rs))

/-- `RSI.prototype.update` (lines 36-63).  Returns the new state and the
returned value (`none` models the source's `null`). -/
def RSI.update (s : RSI) (price : ℚ) : RSI × Option ℚ :=
  match s.lastPrice with
  | none => ({ s with lastPrice := some price }, none)
  | some lp =>
      let change := price - lp
      let gain := if 0 < change then change else 0
      let loss := if change < 0 then -change else 0
      let gains0 := s.gains ++ [gain]
      let losses0 := s.losses ++ [loss]
      let gains1 := if s.period < gains0.length then gains0.drop 1 else gains0
      let losses1 := if s.period < gains0.length then losses0.drop 1 else losses0
      if gains1.length = s.period then
        ({ s with gains := gains1, losses := losses1 },
          some (rsiValue gains1 losses1 s.period))
      else
        ({ s with gains := gains1, losses := losses1, lastPrice := some price },
          none)

/-- `RSI.prototype.reset` (lines 77-81). -/
def RSI.reset (s : RSI) : RSI :=
  { s with gains := [], losses := [], lastPrice := none }

/-- Feed a list of prices through `RSI.update`, collecting the outputs. -/
def rsiRun : RSI → List ℚ → RSI × List (Option ℚ)
  | s, [] => (s, [])
  | s, p :: ps =>
      let r := s.update p
      let rest := rsiRun r.1 ps
      (rest.1, r.2 :: rest.2)

/-- The sequence of values returned by one `RSI.update` call per price,
starting from a freshly constructed `RSI(period)`. -/
def rsiOutputs (period : Nat) (prices : List ℚ) : List (Option ℚ) :=
  (rsiRun (RSI.init period) prices).2

/-! ### ATR (`src/engine/indicators/index.js` lines 84-122) -/

/-- State of the `ATR` class: bounded window of true ranges and the previous
candle. -/
structure ATR where
  period : Nat
  trueRanges : List ℚ
  lastCandle : Option Candle
  deriving Repr, DecidableEq

/-- The `ATR` constructor (default period 14). -/
def ATR.init (period : Nat) : ATR :=
  { period := period, trueRanges := [], lastCandle := none }

/-- `ATR.prototype.getValue` (lines 113-116): arithmetic mean of the stored
true ranges, `null` when there are none. -/
def ATR.getValue (s : ATR) : Option ℚ :=
  if s.trueRanges.length = 0 then none
  else some (s.trueRanges.sum / (s.trueRanges.length : ℚ))

/-- `ATR.prototype.update` (lines 91-111): true range against the previous
close, pushed into a window bounded by `period`; returns `getValue()`. -/
def ATR.update (s : ATR) (candle : Candle) : ATR × Option ℚ :=
  let s1 :=
    match s.lastCandle with
    | none => s
    | some lastCandle =>
        let tr1 := candle.high - candle.low
        let tr2 := |candle.high - lastCandle.close|
        let tr3 := |candle.low - lastCandle.close|
        let trueRange := max tr1 (max tr2 tr3)
        let trs := s.trueRanges ++ [trueRange]
        { s with trueRanges := if s.period < trs.length then trs.drop 1 else trs }
  let s2 := { s1 with lastCandle := some candle }
  (s2, s2.getValue)

/-- `ATR.prototype.reset` (lines 118-121). -/
def ATR.reset (s : ATR) : ATR :=
  { s with trueRanges := [], lastCandle := none }

/-! ### BollingerBands (`src/engine/indicators/index.js` lines 124-171) -/

/-- State of the `BollingerBands` class: a price window bounded by `period`.
The field `stdDev` is the band-width multiplier `k`. -/
structure BollingerBands where
  period : Nat
  stdDev : ℚ
  prices : List ℚ
  deriving Repr, DecidableEq

/-- The band object returned by `BollingerBands.update`/`getValue`. -/
structure BBValue where
  middle : ℚ
  upper : ℚ
  lower : ℚ
  bandwidth : ℚ
  deriving Repr, DecidableEq

/-- The `BollingerBands` constructor (defaults 20 and 2). -/
def BollingerBands.init (period : Nat) (stdDev : ℚ) : BollingerBands :=
  { period := period, stdDev := stdDev, prices := [] }

/-- The band computation shared by `update` and `getValue` (lines 141-150).
`Math.sqrt` is passed in explicitly as `sqrt`; it never touches the state. -/
def bbCompute (sqrt : ℚ → ℚ) (s : BollingerBands) : BBValue :=
  let sma := s.prices.sum / (s.period : ℚ)
  let variance := (s.prices.map (fun p => (p - sma) ^ 2)).sum / (s.period : ℚ)
  let stdDeviation := sqrt variance
  { middle := sma
    upper := sma + stdDeviation * s.stdDev
    lower := sma - stdDeviation * s.stdDev
    bandwidth := stdDeviation * s.stdDev * 2 / sma }

/-- `BollingerBands.prototype.update` (lines 131-151). -/
def BollingerBands.update (sqrt : ℚ → ℚ) (s : BollingerBands) (price : ℚ) :
    BollingerBands × Option BBValue :=
  let prices0 := s.prices ++ [price]
  let prices1 := if s.period < prices0.length then prices0.drop 1 else prices0
  let s1 := { s with prices := prices1 }
  if prices1.length < s.period then (s1, none)
  else (s1, some (bbCompute sqrt s1))

/-- `BollingerBands.prototype.getValue` (lines 153-166). -/
def BollingerBands.getValue (sqrt : ℚ → ℚ) (s : BollingerBands) : Option BBValue :=
  if s.prices.length < s.period then none else some (bbCompute sqrt s)

/-- `BollingerBands.prototype.reset` (lines 168-170): only clears `prices`. -/
def BollingerBands.reset (s : BollingerBands) : BollingerBands :=
  { s with prices := [] }

/-! ### VWAP (`src/engine/indicators/index.js` lines 173-194) -/

/-- State of the `VWAP` class: unbounded running sums. -/
structure VWAP where
  totalVolume : ℚ
  totalVolumePrice : ℚ
  deriving Repr, DecidableEq

/-- The `VWAP` constructor. -/
def VWAP.init : VWAP := { totalVolume := 0, totalVolumePrice := 0 }

/-- `VWAP.prototype.getValue` (lines 185-188). -/
def VWAP.getValue (s : VWAP) : Option ℚ :=
  if s.totalVolume = 0 then none else some (s.totalVolumePrice / s.totalVolume)

/-- `VWAP.prototype.update` (lines 179-183); `volume` defaults to 1 at call
sites. -/
def VWAP.update (s : VWAP) (price volume : ℚ) : VWAP × Option ℚ :=
  let s1 : VWAP :=
    { totalVolume := s.totalVolume + volume
      totalVolumePrice := s.totalVolumePrice + price * volume }
  (s1, s1.getValue)

/-- `VWAP.prototype.reset` (lines 190-193). -/
def VWAP.reset (_ : VWAP) : VWAP := { totalVolume := 0, totalVolumePrice := 0 }

/-! ### Generic stream runner

Feeds a list of inputs through a stateful `update` function, collecting the
per-step outputs.  Used to express observational behaviour of the indicator
classes and strategies. -/

/-- Run a stateful step function over a list of inputs, returning the final
state and the list of outputs in order. -/
def runStream (f : σ → α → σ × β) : σ → List α → σ × List β
  | s, [] => (s, [])
  | s, a :: as =>
      let r := f s a
      let rest := runStream f r.1 as
      (rest.1, r.2 :: rest.2)

/-! ### StrategyEngine (`src/engine/StrategyEngine.js`) -/

/-- Signal direction (`side: 'long' | 'short'`). -/
inductive Side where
  | long
  | short
  deriving Repr, DecidableEq

/-- The crossover direction computed by `EMACrossStrategy.evaluate`
(`'bullish' | 'bearish'`). -/
inductive CrossDir where
  | bullish
  | bearish
  deriving Repr, DecidableEq

/-- A strategy-produced signal: `{side, confidence, details}`; the `details`
metadata payload is not referenced by any verified claim and is omitted. -/
structure Signal where
  side : Side
  confidence : ℚ
  deriving Repr, DecidableEq

/-- State of `EMACrossStrategy` (`src/engine/StrategyEngine.js` lines
123-163): two EMAs plus the last crossover direction.  Parameter defaults in
the source are `fastPeriod = 12`, `slowPeriod = 26`. -/
structure EMACrossStrategy where
  fastEMA : EMA
  slowEMA : EMA
  lastCrossover : Option CrossDir
  deriving Repr, DecidableEq

/-- `EMACrossStrategy.initializeIndicators` (lines 124-129). -/
def EMACrossStrategy.init (fastPeriod slowPeriod : ℚ) : EMACrossStrategy :=
  { fastEMA := EMA.init fastPeriod
    slowEMA := EMA.init slowPeriod
    lastCrossover := none }

/-- `EMACrossStrategy.evaluate` (lines 131-162).  The source's
`fastEMA === null || slowEMA === null` guard is dead code because
`EMA.update` always returns the freshly assigned value.  Both branches
assign `this.lastCrossover = currentCrossover`. -/
def EMACrossStrategy.evaluate (s : EMACrossStrategy) (price : ℚ) :
    EMACrossStrategy × Option Signal :=
  let f := s.fastEMA.update price
  let g := s.slowEMA.update price
  let currentCrossover : CrossDir := if g.2 < f.2 then .bullish else .bearish
  let s1 : EMACrossStrategy :=
    { fastEMA := f.1, slowEMA := g.1, lastCrossover := some currentCrossover }
  match s.lastCrossover with
  | none => (s1, none)
  | some lc =>
      if lc ≠ currentCrossover then
        (s1, some
          { side := if currentCrossover = .bullish then .long else .short
            confidence := |f.2 - g.2| / g.2 })
      else (s1, none)

/-- The per-price signal stream of a fresh `EMACrossStrategy(fast, slow)`. -/
def emaCrossSignals (fastPeriod slowPeriod : ℚ) (prices : List ℚ) :
    List (Option Signal) :=
  (runStream EMACrossStrategy.evaluate (EMACrossStrategy.init fastPeriod slowPeriod) prices).2

/-- Strategy names registered on the engine (`src/engine/StrategyEngine.js`
lines 329-332). -/
def registeredStrategies : List String :=
  ["EMA_Cross", "RSI_MeanReversion", "BollingerBands", "MultiIndicator"]

/-- `StrategyEngine.createStrategy` (lines 15-18): throws
`Strategy <name> not found` when `name` is not in the registry; the database
insert and instance construction that follow are external and modelled as
success. -/
def createStrategy (registry : List String) (name : String) : Except String Unit :=
  if name ∈ registry then .ok ()
  else .error ("Strategy " ++ name ++ " not found")

/-- A signal as pushed by `evaluateStrategies` after the database insert
succeeds: `{...signal, id: data.id, strategy: strategy.name}`. -/
structure DBSignal where
  strategy : String
  side : Side
  confidence : ℚ
  id : Nat
  deriving Repr, DecidableEq

/-- `StrategyEngine.evaluateStrategies` (lines 64-95).  Each strategy is a
pair of its `name` and the outcome of `await strategy.evaluate(tick, candle)`
at this evaluation — a thrown error (`Except.error`), `null`, or a signal.
`persist` models the awaited supabase insert, returning the row id or an
error; on insert error the signal is not pushed (line 85), and a thrown
strategy error is caught and skipped (lines 89-91). -/
def evaluateStrategies (persist : Signal → Except String Nat) :
    List (String × Except String (Option Signal)) → List DBSignal
  | [] => []
  | (name, r) :: rest =>
      let tail := evaluateStrategies persist rest
      match r with
      | .error _ => tail
      | .ok none => tail
      | .ok (some sig) =>
          match persist sig with
          | .error _ => tail
          | .ok i =>
              { strategy := name, side := sig.side, confidence := sig.confidence,
                id := i } :: tail

/-! ### Scheduler (`src/engine/Scheduler.js`) -/

namespace Scheduler

/-- The timeframe table (`src/engine/Scheduler.js` lines 6-18), in ms. -/
def timeframes : List (String × Int) :=
  [("1s", 1000), ("5s", 5000), ("15s", 15000), ("30s", 30000),
   ("1m", 60000), ("5m", 300000), ("15m", 900000), ("30m", 1800000),
   ("1h", 3600000), ("4h", 14400000), ("1d", 86400000)]

/-- `Scheduler.getNextCandleBoundary` (lines 121-126).  JavaScript `%` on
numbers truncates toward zero, which is `Int.tmod`. -/
def getNextCandleBoundary (currentTime intervalMs : Int) : Int :=
  currentTime - currentTime.tmod intervalMs + intervalMs

/-- The timeframe validation at the head of
`Scheduler.scheduleAtCandleBoundary` (lines 22-28): unknown timeframes throw
`Invalid timeframe: <tf>`; otherwise the resolved `intervalMs` is used. -/
def scheduleAtCandleBoundary (timeframe : String) : Except String Int :=
  match timeframes.lookup timeframe with
  | none => .error ("Invalid timeframe: " ++ timeframe)
  | some intervalMs => .ok intervalMs

/-- The arming computation of `scheduleNext`
(`src/engine/Scheduler.js` lines 32-59): next boundary and the delay handed
to `setTimeout`.  When `delay ≤ 0` the job targets the following boundary
with delay `Math.max(0, nextDelay)`. -/
def scheduleNextTarget (serverTime offset intervalMs : Int) : Int × Int :=
  let nextBoundary := getNextCandleBoundary serverTime intervalMs
  let delay := nextBoundary - serverTime - offset
  if delay ≤ 0 then
    let nextNextBoundary := nextBoundary + intervalMs
    let nextDelay := nextNextBoundary - serverTime - offset
    (nextNextBoundary, max 0 nextDelay)
  else
    (nextBoundary, delay)

end Scheduler

/-! ### IndicatorWorker candle building (`src/workers/indicators.worker.js`) -/

namespace IndicatorWorker

/-- The worker's timeframe table (`src/workers/indicators.worker.js` lines
133-145), in ms. -/
def timeframesTable : List (String × Nat) :=
  [("1s", 1000), ("5s", 5000), ("15s", 15000), ("30s", 30000),
   ("1m", 60000), ("5m", 300000), ("15m", 900000), ("30m", 1800000),
   ("1h", 3600000), ("4h", 14400000), ("1d", 86400000)]

/-- `IndicatorWorker.getTimeframeMs` (lines 132-147): unknown timeframes
silently fall back to `60000` via `timeframes[timeframe] || 60000`. -/
def getTimeframeMs (timeframe : String) : Nat :=
  (timeframesTable.lookup timeframe).getD 60000

/-- `IndicatorWorker.getMsToTimeframe` (lines 149-164): reverse lookup with
default `'1m'`. -/
def getMsToTimeframe (ms : Nat) : String :=
  ((timeframesTable.map (fun p => (p.2, p.1))).lookup ms).getD "1m"

/-- `IndicatorWorker.getCandleStart` (lines 126-130): `ts - ts % timeframeMs`.
Tick timestamps are non-negative epoch milliseconds, so `Nat` subtraction and
`%` coincide with the JavaScript arithmetic here. -/
def getCandleStart (timestamp timeframeMs : Nat) : Nat :=
  timestamp - timestamp % timeframeMs

/-- `IndicatorWorker.createNewCandle` (lines 103-116). -/
def createNewCandle (tick : Tick) (candleStart timeframeMs : Nat) : Candle :=
  { symbol := tick.symbol
    frame := getMsToTimeframe timeframeMs
    open_ := tick.price
    high := tick.price
    low := tick.price
    close := tick.price
    ts_open := candleStart
    ts_close := candleStart + timeframeMs
    volume := 1
    tickCount := 1 }

/-- `IndicatorWorker.updateCandle` (lines 118-124). -/
def updateCandle (candle : Candle) (tick : Tick) : Candle :=
  { candle with
    high := max candle.high tick.price
    low := min candle.low tick.price
    close := tick.price
    volume := candle.volume + 1
    tickCount := candle.tickCount + 1 }

/-- One tick through `IndicatorWorker.buildCandle` (lines 61-101) for a fixed
`(symbol, timeframe)` builder: returns the new current candle and the
completed candle, if this tick closed one. -/
def buildCandleStep (timeframeMs : Nat) (cur : Option Candle) (tick : Tick) :
    Option Candle × Option Candle :=
  let candleStart := getCandleStart tick.ts timeframeMs
  match cur with
  | none => (some (createNewCandle tick candleStart timeframeMs), none)
  | some currentCandle =>
      if currentCandle.ts_open ≠ candleStart then
        (some (createNewCandle tick candleStart timeframeMs), some currentCandle)
      else
        (some (updateCandle currentCandle tick), none)

/-- Feed a tick sequence through `buildCandle` for one `(symbol, timeframe)`
key, collecting completed candles in emission order. -/
def runBuilder (timeframeMs : Nat) : Option Candle → List Tick → Option Candle × List Candle
  | cur, [] => (cur, [])
  | cur, t :: ts =>
      let step := buildCandleStep timeframeMs cur t
      let rest := runBuilder timeframeMs step.1 ts
      (rest.1, step.2.toList ++ rest.2)

/-- The completed candles produced from a tick sequence starting with no
current candle, exactly as repeated `buildCandle` calls produce them. -/
def completedCandles (timeframeMs : Nat) (ticks : List Tick) : List Candle :=
  (runBuilder timeframeMs none ticks).2

/-- Modelled from the spec: the ticks "of the period" of a candle are the
maximal consecutive group of input ticks sharing one candle start
(`floor(tickTime / timeframeDuration) * timeframeDuration`).  Auxiliary
grouping: `currun` is the group currently being collected, `curStart` its
candle start. -/
def candleRunsAux (timeframeMs : Nat) : List Tick → List Tick → Nat → List (List Tick)
  | currun, [], _ => [currun]
  | currun, t :: ts, curStart =>
      let cs := getCandleStart t.ts timeframeMs
      if cs = curStart then candleRunsAux timeframeMs (currun ++ [t]) ts curStart
      else currun :: candleRunsAux timeframeMs [t] ts cs

/-- Modelled from the spec: consecutive grouping of a tick sequence by candle
start; the builder's completed candles correspond to all groups but the last
(which is still open). -/
def candleRuns (timeframeMs : Nat) : List Tick → List (List Tick)
  | [] => []
  | t :: ts => candleRunsAux timeframeMs [t] ts (getCandleStart t.ts timeframeMs)

/-- The candle invariants claimed for a (completed or open) candle `c` built
from the tick group `run` of its period: OHLC ordering, open/close from the
first/most-recent tick, high/low bounding every tick price, aligned period
start and exact period span. -/
structure CandleTracks (timeframeMs : Nat) (run : List Tick) (c : Candle) : Prop where
  nonempty : run ≠ []
  open_eq : ∀ t0 ∈ run.head?, c.open_ = t0.price
  start_eq : ∀ t0 ∈ run.head?, c.ts_open = getCandleStart t0.ts timeframeMs
  close_eq : ∀ tl ∈ run.getLast?, c.close = tl.price
  bounds : ∀ t ∈ run, c.low ≤ t.price ∧ t.price ≤ c.high
  aligned : ∀ t ∈ run, getCandleStart t.ts timeframeMs = c.ts_open
  low_open : c.low ≤ c.open_
  open_high : c.open_ ≤ c.high
  low_close : c.low ≤ c.close
  close_high : c.close ≤ c.high
  ts_span : c.ts_close = c.ts_open + timeframeMs

/-- The local candle invariant: OHLC ordering, exact period span and aligned
period start. -/
def CandleOk (timeframeMs : Nat) (c : Candle) : Prop :=
  c.low ≤ c.open_ ∧ c.open_ ≤ c.high ∧ c.low ≤ c.close ∧ c.close ≤ c.high ∧
    c.ts_close = c.ts_open + timeframeMs ∧ c.ts_open % timeframeMs = 0

end IndicatorWorker

/-! ### Scheduler job/timer event model (`src/engine/Scheduler.js`)

`scheduleAtCandleBoundary` arms a `setTimeout` whose callback runs
`executeAtBoundary` and then re-arms only `if (this.jobs.has(jobId))`
(lines 42-58); `cancelJob` calls `clearTimeout(job.timeoutId)` and deletes the
job from `this.jobs` (lines 128-136).  The model below makes the event loop
explicit: pending timers are a map from timer id to job id, a fired callback
leaves a pending re-arm step, and cancellation clears the timer and the map
entry synchronously.  Job ids are allocated fresh (the source builds them from
`Date.now()`), timer ids model `setTimeout` handles. -/

namespace SchedulerModel

/-- First-match association-list lookup (models `Map.get`). -/
def lookupA : List (Nat × Nat) → Nat → Option Nat
  | [], _ => none
  | p :: ps, k => if p.1 = k then some p.2 else lookupA ps k

/-- Remove every pair with the given key (models `Map.delete` /
`clearTimeout`). -/
def eraseA : List (Nat × Nat) → Nat → List (Nat × Nat)
  | [], _ => []
  | p :: ps, k => if p.1 = k then eraseA ps k else p :: eraseA ps k

/-- Scheduler-plus-event-loop state: `jobs` is `this.jobs` (job id ↦ armed
timer id), `timers` the event loop's pending timeouts (timer id ↦ job id),
`rearms` the job ids whose fire callback has run but whose
`if (jobs.has(jobId)) scheduleNext()` re-arm step has not, `fired` the log of
callback invocations. -/
structure SchedState where
  jobs : List (Nat × Nat)
  timers : List (Nat × Nat)
  rearms : List Nat
  fired : List Nat
  nextTimer : Nat
  nextJob : Nat
  deriving Repr, DecidableEq

/-- The scheduler before any `scheduleAtCandleBoundary` call. -/
def initState : SchedState :=
  { jobs := [], timers := [], rearms := [], fired := [], nextTimer := 0, nextJob := 0 }

/-- `scheduleNext` for job `j` (lines 32-59): allocate a `setTimeout` handle
and store `this.jobs.set(jobId, { timeoutId, ... })`. -/
def armJob (s : SchedState) (j : Nat) : SchedState :=
  { s with
    jobs := (j, s.nextTimer) :: eraseA s.jobs j
    timers := (s.nextTimer, j) :: eraseA s.timers s.nextTimer
    nextTimer := s.nextTimer + 1 }

/-- `Scheduler.cancelJob` (lines 128-136): if the job exists,
`clearTimeout(job.timeoutId)` and delete it; otherwise a no-op returning
`false`. -/
def cancelJob (s : SchedState) (j : Nat) : SchedState :=
  match lookupA s.jobs j with
  | some timeoutId =>
      { s with timers := eraseA s.timers timeoutId, jobs := eraseA s.jobs j }
  | none => s

/-- Events of the scheduler model: a `scheduleAtCandleBoundary` call (fresh
job id), a pending timer firing (callback invocation), the callback's guarded
re-arm step, and a `cancelJob` call. -/
inductive Event where
  | schedule
  | fire (timerId : Nat)
  | rearm (jobId : Nat)
  | cancel (jobId : Nat)
  deriving Repr, DecidableEq

/-- One transition.  `fire t` consumes the pending timer, logs the callback
invocation and leaves the re-arm step pending; `rearm j` performs
`if (this.jobs.has(jobId)) scheduleNext()` (lines 44-46, 53-55). -/
def step (s : SchedState) : Event → SchedState
  | .schedule => armJob { s with nextJob := s.nextJob + 1 } s.nextJob
  | .fire t =>
      match lookupA s.timers t with
      | some j =>
          { s with
            timers := eraseA s.timers t
            fired := s.fired ++ [j]
            rearms := j :: s.rearms }
      | none => s
  | .rearm j =>
      if j ∈ s.rearms then
        let s1 := { s with rearms := s.rearms.erase j }
        if (lookupA s1.jobs j).isSome then armJob s1 j else s1
      else s
  | .cancel j => cancelJob s j

/-- Run a sequence of events. -/
def run (s : SchedState) (evs : List Event) : SchedState := evs.foldl step s

/-- Reachable-state invariant: every pending timer belongs to the job that
holds it, ids are bounded by the allocation counters, a job awaiting its
re-arm step has no pending timer, and re-arm obligations are not duplicated. -/
def Inv (s : SchedState) : Prop :=
  (∀ p ∈ s.timers, lookupA s.jobs p.2 = some p.1 ∧ p.1 < s.nextTimer ∧ p.2 < s.nextJob) ∧
  (∀ j ∈ s.rearms, j < s.nextJob) ∧
  (∀ j ∈ s.rearms, ∀ p ∈ s.timers, p.2 ≠ j) ∧
  s.rearms.Nodup

instance (s : SchedState) : Decidable (Inv s) := by
  unfold Inv
  infer_instance

/-- Job `j` is dead: not in `this.jobs` and owning no pending timer. -/
def dead (s : SchedState) (j : Nat) : Prop :=
  lookupA s.jobs j = none ∧ ∀ p ∈ s.timers, p.2 ≠ j

instance (s : SchedState) (j : Nat) : Decidable (dead s j) := by
  unfold dead
  infer_instance

end SchedulerModel

/-! ### Helpers for the `evaluateStrategies` contract -/

/-- A persistence function modelling the supabase insert succeeding (the
store is an external collaborator; the id column is irrelevant here). -/
def persistOk : Signal → Except String Nat := fun _ => .ok 0

/-- The claimed selection: a strategy contributes exactly its non-null,
non-throwing evaluation result, in iteration order. -/
def collectSignal (entry : String × Except String (Option Signal)) : Option DBSignal :=
  match entry with
  | (name, .ok (some sig)) =>
      some { strategy := name, side := sig.side, confidence := sig.confidence, id := 0 }
  | _ => none

/-! ### WebSocketClient clock synchronisation (`src/data/websocketClient.js`) -/

/-- The clock-sync state of `WebSocketClient`: the process-wide offset
(constructor sets it to `0`, line 6) and the `lastPingTime` recorded by
`syncClock` (line 159). -/
structure WebSocketClient where
  clockOffset : ℚ
  lastPingTime : Option ℚ
  deriving Repr, DecidableEq

/-- The `WebSocketClient` constructor (lines 2-13): `clockOffset = 0`,
`lastPingTime = null`. -/
def WebSocketClient.init : WebSocketClient :=
  { clockOffset := 0, lastPingTime := none }

/-- `WebSocketClient.getServerTime` (lines 140-142):
`new Date(Date.now() + this.clockOffset)`; `localNow` models `Date.now()`. -/
def WebSocketClient.getServerTime (s : WebSocketClient) (localNow : ℚ) : ℚ :=
  localNow + s.clockOffset

/-- `WebSocketClient.syncClock` (lines 154-160): records the ping send time. -/
def WebSocketClient.syncClock (s : WebSocketClient) (clientTime : ℚ) : WebSocketClient :=
  { s with lastPingTime := some clientTime }

/-- `WebSocketClient.handlePong` (lines 162-173): on a pong, with a ping
outstanding, overwrites the offset with `serverTime - now + rtt/2` where
`rtt = now - lastPingTime` and `now` is the local time at receipt. -/
def WebSocketClient.handlePong (s : WebSocketClient) (serverTime now : ℚ) : WebSocketClient :=
  match s.lastPingTime with
  | none => s
  | some lastPing =>
      let rtt := now - lastPing
      { s with clockOffset := serverTime - now + rtt / 2 }

/-! ## Theorems -/

/-- Constructor disequality, as a rewrite rule for evaluation. -/
theorem CrossDir.bearish_eq_bullish :
    (CrossDir.bearish = CrossDir.bullish) = False := by simp

/-- Constructor disequality, as a rewrite rule for evaluation. -/
theorem CrossDir.bullish_eq_bearish :
    (CrossDir.bullish = CrossDir.bearish) = False := by simp

/-- C4: for every timeframe duration `T` in the scheduler's timeframe table
and every timestamp `t`, `getNextCandleBoundary(t, T)` returns an exact
integer multiple of `T` that is strictly greater than `t`. -/
theorem getNextCandleBoundary_spec (tf : String) (intervalMs : Int)
    (hmem : (tf, intervalMs) ∈ Scheduler.timeframes) (t : Int) :
    (∃ k : Int, Scheduler.getNextCandleBoundary t intervalMs = k * intervalMs) ∧
      t < Scheduler.getNextCandleBoundary t intervalMs := by
  have hpos : 0 < intervalMs := by
    fin_cases hmem <;> norm_num
  constructor
  · refine ⟨t.tdiv intervalMs + 1, ?_⟩
    have h := Int.tdiv_add_tmod t intervalMs
    unfold Scheduler.getNextCandleBoundary
    linear_combination -h
  · have h := Int.tmod_lt_of_pos t hpos
    unfold Scheduler.getNextCandleBoundary
    omega

/-- Witness for C4, at timeframe `'1m'` (60000 ms) and `t = 123456`. -/
theorem getNextCandleBoundary_spec_witness :
    ("1m", (60000 : Int)) ∈ Scheduler.timeframes ∧
      ((∃ k : Int, Scheduler.getNextCandleBoundary 123456 60000 = k * 60000) ∧
        (123456 : Int) < Scheduler.getNextCandleBoundary 123456 60000) :=
  ⟨by decide, getNextCandleBoundary_spec "1m" 60000 (by decide) 123456⟩

/-- C8: when the computed delay `nextBoundary - now - offsetMs` is `≤ 0`,
`scheduleNext` targets the following boundary `nextBoundary + T`; and under
`0 < T` and `offsetMs < T` the armed delay is strictly positive in both
branches, so no immediate firing for the already-passed boundary occurs. -/
theorem scheduleNextTarget_spec (serverTime offset intervalMs : Int)
    (hT : 0 < intervalMs) (hoff : offset < intervalMs) :
    (Scheduler.getNextCandleBoundary serverTime intervalMs - serverTime - offset ≤ 0 →
        (Scheduler.scheduleNextTarget serverTime offset intervalMs).1 =
          Scheduler.getNextCandleBoundary serverTime intervalMs + intervalMs) ∧
      0 < (Scheduler.scheduleNextTarget serverTime offset intervalMs).2 := by
  have hmod := Int.tmod_lt_of_pos serverTime hT
  unfold Scheduler.scheduleNextTarget
  simp only []
  split_ifs with h
  · refine ⟨fun _ => rfl, ?_⟩
    have hv : 0 < Scheduler.getNextCandleBoundary serverTime intervalMs + intervalMs
        - serverTime - offset := by
      unfold Scheduler.getNextCandleBoundary at h ⊢
      omega
    exact lt_max_iff.mpr (Or.inr hv)
  · exact ⟨fun h' => absurd h' h, by omega⟩

/-- Witness for C8, at `serverTime = 59999`, `offset = 5`, `T = 60000`
(a state with the boundary already passed by the offset). -/
theorem scheduleNextTarget_spec_witness :
    (0 : Int) < 60000 ∧ (5 : Int) < 60000 ∧
      ((Scheduler.getNextCandleBoundary 59999 60000 - 59999 - 5 ≤ 0 →
          (Scheduler.scheduleNextTarget 59999 5 60000).1 =
            Scheduler.getNextCandleBoundary 59999 60000 + 60000) ∧
        0 < (Scheduler.scheduleNextTarget 59999 5 60000).2) :=
  ⟨by decide, by decide, scheduleNextTarget_spec 59999 5 60000 (by decide) (by decide)⟩

/-- C7: the constructor sets the process-wide clock offset to 0; on every
pong answering an outstanding ping, the offset is overwritten with
`serverTime - localTimeAtReceipt + roundTripTime/2` where
`roundTripTime = now - lastPingTime`; and `getServerTime` always returns
local time plus the current offset. -/
theorem clockOffset_spec :
    WebSocketClient.init.clockOffset = 0 ∧
      (∀ (s : WebSocketClient) (lastPing serverTime now : ℚ),
        s.lastPingTime = some lastPing →
          (s.handlePong serverTime now).clockOffset =
            serverTime - now + (now - lastPing) / 2) ∧
      (∀ (s : WebSocketClient) (localNow : ℚ),
        s.getServerTime localNow = localNow + s.clockOffset) := by
  refine ⟨rfl, ?_, fun s localNow => rfl⟩
  intro s lastPing serverTime now h
  simp [WebSocketClient.handlePong, h]

/-- Witness for C7: a pong at local time 20 for a ping sent at 10 with
server time 105 sets the offset to `105 - 20 + 10/2`. -/
theorem clockOffset_spec_witness :
    ({ clockOffset := 0, lastPingTime := some 10 } : WebSocketClient).lastPingTime
        = some 10 ∧
      (({ clockOffset := 0, lastPingTime := some 10 } : WebSocketClient).handlePong
          105 20).clockOffset = 105 - 20 + (20 - 10) / 2 :=
  ⟨rfl, clockOffset_spec.2.1 _ 10 105 20 rfl⟩

/-- C3 counterexample: `'2h'` is not in the timeframe table, and the
scheduler would reject it, but the worker's candle-building timeframe
resolution (`getTimeframeMs`, used by `buildCandle`) silently substitutes the
default 60000 ms instead of raising an error — refuting the claim that
building a candle rejects unknown timeframe strings at the call site. -/
theorem unknownTimeframe_counterexample :
    IndicatorWorker.timeframesTable.lookup "2h" = none ∧
      IndicatorWorker.getTimeframeMs "2h" = 60000 := by
  exact ⟨by decide, by decide⟩

/-- C3 amended: scheduling a job with an unknown timeframe string throws
`Invalid timeframe` at the call site, and creating a strategy with an
unregistered kind throws `Strategy ... not found`; but the candle builder
does not reject an unknown timeframe — `getTimeframeMs` silently substitutes
the default duration 60000 ms. -/
theorem configErrors_spec (tf name : String)
    (htf : Scheduler.timeframes.lookup tf = none)
    (htfw : IndicatorWorker.timeframesTable.lookup tf = none)
    (hname : name ∉ registeredStrategies) :
    Scheduler.scheduleAtCandleBoundary tf =
        .error ("Invalid timeframe: " ++ tf) ∧
      createStrategy registeredStrategies name =
        .error ("Strategy " ++ name ++ " not found") ∧
      IndicatorWorker.getTimeframeMs tf = 60000 := by
  refine ⟨?_, ?_, ?_⟩
  · simp [Scheduler.scheduleAtCandleBoundary, htf]
  · simp [createStrategy, hname]
  · simp [IndicatorWorker.getTimeframeMs, htfw]

/-- Witness for the amended C3, at timeframe `'2h'` and strategy kind
`'Momentum'`. -/
theorem configErrors_spec_witness :
    Scheduler.timeframes.lookup "2h" = none ∧
      IndicatorWorker.timeframesTable.lookup "2h" = none ∧
      "Momentum" ∉ registeredStrategies ∧
      (Scheduler.scheduleAtCandleBoundary "2h" =
          .error ("Invalid timeframe: " ++ "2h") ∧
        createStrategy registeredStrategies "Momentum" =
          .error ("Strategy " ++ "Momentum" ++ " not found") ∧
        IndicatorWorker.getTimeframeMs "2h" = 60000) :=
  ⟨by decide, by decide, by decide,
    configErrors_spec "2h" "Momentum" (by decide) (by decide) (by decide)⟩

/-- `evaluateStrategies` distributes over list append. -/
theorem evaluateStrategies_append (persist : Signal → Except String Nat) :
    ∀ (l₁ l₂ : List (String × Except String (Option Signal))),
      evaluateStrategies persist (l₁ ++ l₂) =
        evaluateStrategies persist l₁ ++ evaluateStrategies persist l₂ := by
  intro l₁ l₂
  induction l₁ with
  | nil => rfl
  | cons x xs ih =>
      obtain ⟨name, r⟩ := x
      cases r with
      | error e => simpa [evaluateStrategies] using ih
      | ok o =>
          cases o with
          | none => simpa [evaluateStrategies] using ih
          | some sig =>
              cases hp : persist sig with
              | error e => simp [evaluateStrategies, hp, ih]
              | ok i => simp [evaluateStrategies, hp, ih]

/-- C9: with the external insert succeeding, `evaluateStrategies` collects
exactly the non-null evaluation results in strategy iteration order, and a
strategy whose `evaluate` throws contributes no signal while all remaining
strategies are still evaluated; the call itself never fails (it is a total
function). -/
theorem evaluateStrategies_spec :
    (∀ strats : List (String × Except String (Option Signal)),
      evaluateStrategies persistOk strats = strats.filterMap collectSignal) ∧
      (∀ (pre post : List (String × Except String (Option Signal)))
          (name e : String),
        evaluateStrategies persistOk (pre ++ (name, Except.error e) :: post) =
          evaluateStrategies persistOk pre ++ evaluateStrategies persistOk post) := by
  constructor
  · intro strats
    induction strats with
    | nil => rfl
    | cons x xs ih =>
        obtain ⟨name, r⟩ := x
        cases r with
        | error e => simp [evaluateStrategies, collectSignal, ih]
        | ok o =>
            cases o with
            | none => simp [evaluateStrategies, collectSignal, ih]
            | some sig => simp [evaluateStrategies, collectSignal, persistOk, ih]
  · intro pre post name e
    rw [evaluateStrategies_append]
    simp [evaluateStrategies]

/-- C1 counterexample: a fresh EMA-Crossover strategy with `fastPeriod = 2`,
`slowPeriod = 3` fed the price sequence `[1,2,3,10,1]` (one `evaluate` per
price) emits two signals — a long when the fast EMA first exceeds the slow
EMA, and a short when it falls back below — not exactly one. -/
theorem emaCross_scenario_counterexample :
    ((emaCrossSignals 2 3 [1, 2, 3, 10, 1]).reduceOption).length = 2 ∧
      ((emaCrossSignals 2 3 [1, 2, 3, 10, 1]).reduceOption).length ≠ 1 := by
  have h : ((emaCrossSignals 2 3 [1, 2, 3, 10, 1]).reduceOption).length = 2 := by
    norm_num [emaCrossSignals, runStream, EMACrossStrategy.evaluate,
      EMACrossStrategy.init, EMA.init, EMA.update, List.reduceOption,
      List.filterMap_cons, CrossDir.bearish_eq_bullish, CrossDir.bullish_eq_bearish]
  exact ⟨h, by omega⟩

/-- C1 amended: over `[1,2,3,10,1]` the EMA-Crossover(2,3) strategy emits
exactly two signals: a long at the second evaluation — the first evaluation
at which the fast EMA strictly exceeds the slow EMA (at the first they are
equal) — and a short at the fifth, where the fast EMA drops back below the
slow EMA.  The second conjunct records, per evaluation, whether the fast EMA
exceeded the slow EMA. -/
theorem emaCross_scenario_amended :
    (emaCrossSignals 2 3 [1, 2, 3, 10, 1]).map (Option.map Signal.side) =
        [none, some Side.long, none, none, some Side.short] ∧
      ((runStream EMA.update (EMA.init 2) [1, 2, 3, 10, 1]).2.zip
          (runStream EMA.update (EMA.init 3) [1, 2, 3, 10, 1]).2).map
          (fun p => if p.2 < p.1 then true else false) =
        [false, true, true, true, false] := by
  constructor <;>
    norm_num [emaCrossSignals, runStream, EMACrossStrategy.evaluate,
      EMACrossStrategy.init, EMA.init, EMA.update,
      CrossDir.bearish_eq_bullish, CrossDir.bullish_eq_bearish]

/-- A stateful step that preserves a projection of the state preserves it
across a whole run. -/
theorem runStream_preserves {σ α β γ : Type _} (f : σ → α → σ × β) (proj : σ → γ)
    (hf : ∀ s a, proj (f s a).1 = proj s) :
    ∀ (l : List α) (s : σ), proj (runStream f s l).1 = proj s := by
  intro l
  induction l with
  | nil => intro s; rfl
  | cons a as ih =>
      intro s
      simp only [runStream]
      rw [ih]
      exact hf s a

/-- After any update history, `EMA.reset` restores the freshly constructed
state. -/
theorem reset_after_run_EMA (p : ℚ) (hist : List ℚ) :
    ((runStream EMA.update (EMA.init p) hist).1).reset = EMA.init p := by
  have h := runStream_preserves EMA.update (fun s => (s.period, s.multiplier))
    (fun s a => by cases hh : s.ema <;> simp [EMA.update, hh]) hist (EMA.init p)
  have h1 := congrArg Prod.fst h
  have h2 := congrArg Prod.snd h
  simp only [EMA.init] at h1 h2 ⊢
  simp [EMA.reset, EMA.mk.injEq, h1, h2]

/-- After any update history, `RSI.reset` restores the freshly constructed
state. -/
theorem reset_after_run_RSI (P : Nat) (hist : List ℚ) :
    ((runStream RSI.update (RSI.init P) hist).1).reset = RSI.init P := by
  have h := runStream_preserves RSI.update (fun s => s.period)
    (fun s a => by
      rcases hh : s.lastPrice with _ | lp
      · simp [RSI.update, hh]
      · simp only [RSI.update, hh]
        split_ifs <;> rfl)
    hist (RSI.init P)
  simp only [RSI.init] at h ⊢
  simp [RSI.reset, RSI.mk.injEq, h]

/-- After any update history, `ATR.reset` restores the freshly constructed
state. -/
theorem reset_after_run_ATR (P : Nat) (hist : List Candle) :
    ((runStream ATR.update (ATR.init P) hist).1).reset = ATR.init P := by
  have h := runStream_preserves ATR.update (fun s => s.period)
    (fun s a => by rcases hh : s.lastCandle with _ | lc <;> simp [ATR.update, hh])
    hist (ATR.init P)
  simp only [ATR.init] at h ⊢
  simp [ATR.reset, ATR.mk.injEq, h]

/-- After any update history, `BollingerBands.reset` restores the freshly
constructed state, for any model of `Math.sqrt`. -/
theorem reset_after_run_BollingerBands (P : Nat) (k : ℚ) (sq : ℚ → ℚ)
    (hist : List ℚ) :
    ((runStream (BollingerBands.update sq) (BollingerBands.init P k) hist).1).reset =
      BollingerBands.init P k := by
  have h := runStream_preserves (BollingerBands.update sq)
    (fun s => (s.period, s.stdDev))
    (fun s a => by
      simp only [BollingerBands.update]
      split_ifs <;> rfl)
    hist (BollingerBands.init P k)
  have h1 := congrArg Prod.fst h
  have h2 := congrArg Prod.snd h
  simp only [BollingerBands.init] at h1 h2 ⊢
  simp [BollingerBands.reset, BollingerBands.mk.injEq, h1, h2]

/-- After any update history, `VWAP.reset` restores the freshly constructed
state. -/
theorem reset_after_run_VWAP (hist : List (ℚ × ℚ)) :
    ((runStream (fun s pv => VWAP.update s pv.1 pv.2) VWAP.init hist).1).reset =
      VWAP.init := rfl

/-- C10: for every indicator kind, any constructor parameters and any update
history, `reset()` restores exactly the freshly constructed state (so every
subsequent sequence of `update`/`getValue` calls returns the same values as
on a fresh instance — shown explicitly for the update streams). -/
theorem reset_restores_fresh :
    (∀ (p : ℚ) (hist : List ℚ),
      ((runStream EMA.update (EMA.init p) hist).1).reset = EMA.init p) ∧
      (∀ (P : Nat) (hist : List ℚ),
        ((runStream RSI.update (RSI.init P) hist).1).reset = RSI.init P) ∧
      (∀ (P : Nat) (hist : List Candle),
        ((runStream ATR.update (ATR.init P) hist).1).reset = ATR.init P) ∧
      (∀ (P : Nat) (k : ℚ) (sq : ℚ → ℚ) (hist : List ℚ),
        ((runStream (BollingerBands.update sq) (BollingerBands.init P k) hist).1).reset =
          BollingerBands.init P k) ∧
      (∀ hist : List (ℚ × ℚ),
        ((runStream (fun s pv => VWAP.update s pv.1 pv.2) VWAP.init hist).1).reset =
          VWAP.init) ∧
      (∀ (p : ℚ) (hist future : List ℚ),
        (runStream EMA.update ((runStream EMA.update (EMA.init p) hist).1).reset future).2 =
          (runStream EMA.update (EMA.init p) future).2) ∧
      (∀ (P : Nat) (hist future : List ℚ),
        (runStream RSI.update ((runStream RSI.update (RSI.init P) hist).1).reset future).2 =
          (runStream RSI.update (RSI.init P) future).2) ∧
      (∀ (P : Nat) (hist future : List Candle),
        (runStream ATR.update ((runStream ATR.update (ATR.init P) hist).1).reset future).2 =
          (runStream ATR.update (ATR.init P) future).2) ∧
      (∀ (P : Nat) (k : ℚ) (sq : ℚ → ℚ) (hist future : List ℚ),
        (runStream (BollingerBands.update sq)
            ((runStream (BollingerBands.update sq) (BollingerBands.init P k) hist).1).reset
            future).2 =
          (runStream (BollingerBands.update sq) (BollingerBands.init P k) future).2) ∧
      (∀ (hist future : List (ℚ × ℚ)),
        (runStream (fun s pv => VWAP.update s pv.1 pv.2)
            ((runStream (fun s pv => VWAP.update s pv.1 pv.2) VWAP.init hist).1).reset
            future).2 =
          (runStream (fun s pv => VWAP.update s pv.1 pv.2) VWAP.init future).2) :=
  ⟨reset_after_run_EMA, reset_after_run_RSI, reset_after_run_ATR,
    reset_after_run_BollingerBands, reset_after_run_VWAP,
    fun p hist future => by rw [reset_after_run_EMA],
    fun P hist future => by rw [reset_after_run_RSI],
    fun P hist future => by rw [reset_after_run_ATR],
    fun P k sq hist future => by rw [reset_after_run_BollingerBands],
    fun hist future => by rw [reset_after_run_VWAP]⟩

/-- The value computed in the full-window branch of `RSI.update` lies in
`[0, 100]` whenever the window entries are non-negative and the period is
positive. -/
theorem rsiValue_mem_range (gains losses : List ℚ) (P : Nat) (hP : 1 ≤ P)
    (hg : ∀ g ∈ gains, 0 ≤ g) (hl : ∀ l ∈ losses, 0 ≤ l) :
    0 ≤ rsiValue gains losses P ∧ rsiValue gains losses P ≤ 100 := by
  have hgs : 0 ≤ gains.sum := List.sum_nonneg hg
  have hls : 0 ≤ losses.sum := List.sum_nonneg hl
  have hPpos : (0 : ℚ) < (P : ℚ) := by
    have : 0 < P := by omega
    exact_mod_cast this
  simp only [rsiValue]
  split_ifs with h
  · norm_num
  · have hag : 0 ≤ gains.sum / (P : ℚ) := div_nonneg hgs hPpos.le
    have hal : 0 < losses.sum / (P : ℚ) :=
      lt_of_le_of_ne (div_nonneg hls hPpos.le) (Ne.symm h)
    have hrs : 0 ≤ gains.sum / (P : ℚ) / (losses.sum / (P : ℚ)) :=
      div_nonneg hag hal.le
    have h2 : 100 / (1 + gains.sum / (P : ℚ) / (losses.sum / (P : ℚ))) ≤ 100 :=
      div_le_self (by norm_num) (by linarith)
    have h3 : 0 < 100 / (1 + gains.sum / (P : ℚ) / (losses.sum / (P : ℚ))) := by
      positivity
    constructor <;> linarith

/-- With an all-zero loss window the full-window branch returns exactly 100. -/
theorem rsiValue_of_losses_zero (gains losses : List ℚ) (P : Nat)
    (hl : ∀ l ∈ losses, l = 0) : rsiValue gains losses P = 100 := by
  have h : losses.sum = 0 := List.sum_eq_zero hl
  simp [rsiValue, h]

/-- Characterisation of one `RSI.update` step when a previous price exists:
the preserved period, the window lengths, the provenance of window entries,
the (frozen-on-return) `lastPrice`, and the returned value. -/
theorem RSI.update_char (s : RSI) (p lp : ℚ) (hlp : s.lastPrice = some lp)
    (hlen : s.gains.length ≤ s.period) (hll : s.losses.length = s.gains.length) :
    (s.update p).1.period = s.period ∧
      (s.update p).1.gains.length = min (s.gains.length + 1) s.period ∧
      (s.update p).1.losses.length = (s.update p).1.gains.length ∧
      ((s.update p).1.gains ⊆ s.gains ++ [if 0 < p - lp then p - lp else 0]) ∧
      ((s.update p).1.losses ⊆ s.losses ++ [if p - lp < 0 then -(p - lp) else 0]) ∧
      ((s.update p).1.lastPrice =
        if s.period ≤ s.gains.length + 1 then some lp else some p) ∧
      ((s.update p).2 =
        if s.period ≤ s.gains.length + 1 then
          some (rsiValue (s.update p).1.gains (s.update p).1.losses s.period)
        else none) := by
  refine ⟨?_, ?_, ?_, ?_, ?_, ?_, ?_⟩
  · simp only [RSI.update, hlp]
    split_ifs <;> rfl
  · simp only [RSI.update, hlp]
    split_ifs <;>
      simp_all only [List.length_drop, List.length_append, List.length_cons,
        List.length_nil] <;>
      omega
  · simp only [RSI.update, hlp]
    split_ifs <;>
      simp_all only [List.length_drop, List.length_append, List.length_cons,
        List.length_nil] <;>
      omega
  · simp only [RSI.update, hlp]
    split_ifs <;>
      first
        | exact List.drop_subset _ _
        | exact List.drop_subset _
        | exact fun a ha => ha
  · simp only [RSI.update, hlp]
    split_ifs <;>
      first
        | exact List.drop_subset _ _
        | exact List.drop_subset _
        | exact fun a ha => ha
  · simp only [RSI.update, hlp]
    split_ifs <;>
      simp_all only [List.length_drop, List.length_append, List.length_cons,
        List.length_nil] <;>
      first
        | rfl
        | omega
  · simp only [RSI.update, hlp]
    split_ifs <;>
      simp_all only [List.length_drop, List.length_append, List.length_cons,
        List.length_nil] <;>
      first
        | rfl
        | omega

/-- Warm-up and range behaviour of a run of `RSI.update` from a state that has
already seen at least one price: with `m` entries in the window, the `k`-th
output of the run is `null` while `m + 1 + k < period` and a value in
`[0, 100]` once `period ≤ m + 1 + k`. -/
theorem rsiRun_outputs_aux (P : Nat) (hP : 1 ≤ P) :
    ∀ (ps : List ℚ) (s : RSI),
      s.period = P → s.gains.length ≤ P → s.losses.length = s.gains.length →
      (∀ g ∈ s.gains, 0 ≤ g) → (∀ l ∈ s.losses, 0 ≤ l) →
      (∃ lp, s.lastPrice = some lp) →
      ∀ k, k < ps.length →
        (s.gains.length + 1 + k < P → (rsiRun s ps).2[k]? = some none) ∧
        (P ≤ s.gains.length + 1 + k →
          ∃ v, (rsiRun s ps).2[k]? = some (some v) ∧ 0 ≤ v ∧ v ≤ 100) := by
  intro ps
  induction ps with
  | nil =>
      intro s _ _ _ _ _ _ k hk
      simp at hk
  | cons p ps ih =>
      intro s hper hlen hll hg hl hsome k hk
      obtain ⟨lp, hlp⟩ := hsome
      obtain ⟨h₁, h₂, h₃, h₄, h₅, h₆, h₇⟩ :=
        RSI.update_char s p lp hlp (by rw [hper]; exact hlen) hll
      have hgain0 : 0 ≤ (if 0 < p - lp then p - lp else 0 : ℚ) := by
        split_ifs with hh
        · linarith
        · exact le_refl 0
      have hloss0 : 0 ≤ (if p - lp < 0 then -(p - lp) else 0 : ℚ) := by
        split_ifs with hh
        · linarith
        · exact le_refl 0
      have hg' : ∀ g ∈ (s.update p).1.gains, 0 ≤ g := by
        intro g hm
        rcases List.mem_append.mp (h₄ hm) with h | h
        · exact hg g h
        · rw [List.mem_singleton] at h
          rw [h]
          exact hgain0
      have hl' : ∀ l ∈ (s.update p).1.losses, 0 ≤ l := by
        intro l hm
        rcases List.mem_append.mp (h₅ hm) with h | h
        · exact hl l h
        · rw [List.mem_singleton] at h
          rw [h]
          exact hloss0
      cases k with
      | zero =>
          constructor
          · intro hlt
            simp only [rsiRun, List.getElem?_cons_zero]
            rw [h₇, if_neg (by omega)]
          · intro hge
            simp only [rsiRun, List.getElem?_cons_zero]
            rw [h₇, if_pos (by omega)]
            refine ⟨_, rfl, ?_⟩
            have hr := rsiValue_mem_range (s.update p).1.gains (s.update p).1.losses
              P hP hg' hl'
            rw [hper]
            exact hr
      | succ k =>
          have hk' : k < ps.length := by
            simp only [List.length_cons] at hk
            omega
          have hsome' : ∃ lp', (s.update p).1.lastPrice = some lp' := by
            rw [h₆]
            split_ifs
            · exact ⟨lp, rfl⟩
            · exact ⟨p, rfl⟩
          have hlen' : (s.update p).1.gains.length ≤ P := by
            rw [h₂]
            omega
          have hih := ih (s.update p).1 (h₁.trans hper) hlen' h₃ hg' hl' hsome' k hk'
          simp only [rsiRun, List.getElem?_cons_succ]
          constructor
          · intro hlt
            exact hih.1 (by rw [h₂]; omega)
          · intro hge
            exact hih.2 (by rw [h₂]; omega)

/-- In a run of `RSI.update` over strictly increasing prices (every change a
gain), every defined output equals 100:  the loss window stays all-zero. -/
theorem rsiRun_allGains_aux :
    ∀ (ps : List ℚ) (s : RSI) (q : ℚ),
      s.lastPrice = some q →
      s.gains.length ≤ s.period → s.losses.length = s.gains.length →
      (∀ l ∈ s.losses, l = 0) →
      (∀ x ∈ ps, q < x) → List.Pairwise (· < ·) ps →
      ∀ (k : Nat) (v : ℚ), (rsiRun s ps).2[k]? = some (some v) → v = 100 := by
  intro ps
  induction ps with
  | nil =>
      intro s q _ _ _ _ _ _ k v h
      simp [rsiRun] at h
  | cons p ps ih =>
      intro s q hlp hlen hll hlz hqs hpw k v hkv
      obtain ⟨h₁, h₂, h₃, h₄, h₅, h₆, h₇⟩ := RSI.update_char s p q hlp hlen hll
      have hqp : q < p := hqs p (by simp)
      have hlz' : ∀ l ∈ (s.update p).1.losses, l = 0 := by
        intro l hm
        rcases List.mem_append.mp (h₅ hm) with h | h
        · exact hlz l h
        · rw [List.mem_singleton] at h
          rw [h, if_neg (by linarith)]
      have hpw' := List.pairwise_cons.mp hpw
      cases k with
      | zero =>
          simp only [rsiRun, List.getElem?_cons_zero] at hkv
          rw [h₇] at hkv
          split_ifs at hkv with hc
          · have hv : v = rsiValue (s.update p).1.gains (s.update p).1.losses s.period := by
              simpa using hkv.symm
            rw [hv]
            exact rsiValue_of_losses_zero _ _ _ hlz'
          · simp at hkv
      | succ k =>
          simp only [rsiRun, List.getElem?_cons_succ] at hkv
          have hlen' : (s.update p).1.gains.length ≤ (s.update p).1.period := by
            rw [h₂, h₁]
            omega
          by_cases hc : s.period ≤ s.gains.length + 1
          · rw [if_pos hc] at h₆
            exact ih (s.update p).1 q h₆ hlen' h₃ hlz'
              (fun x hx => hqs x (List.mem_cons_of_mem p hx)) hpw'.2 k v hkv
          · rw [if_neg hc] at h₆
            exact ih (s.update p).1 p h₆ hlen' h₃ hlz' hpw'.1 hpw'.2 k v hkv

/-- C2 counterexample: for `period = 1` the very first update — the
`period`-th — returns `null` (the source's first update only seeds
`lastPrice`), refuting "a defined value from the `period`-th update
onward". -/
theorem rsi_warmup_counterexample :
    rsiOutputs 1 [5] = [none] ∧
      ¬ ∃ v : ℚ, (rsiOutputs 1 [5])[0]? = some (some v) := by
  have h : rsiOutputs 1 [5] = [none] := by
    norm_num [rsiOutputs, rsiRun, RSI.update, RSI.init]
  refine ⟨h, ?_⟩
  rw [h]
  rintro ⟨v, hv⟩
  simp at hv

/-- C2 amended: for every period `P ≥ 1` and every price sequence, RSI(P)
returns `null` for the first `P` updates and, from the `(P+1)`-th update
onward, a defined value in `[0, 100]`; a strictly increasing price sequence
(all consecutive changes gains) yields the value 100 at every defined
output. -/
theorem rsi_spec_amended (P : Nat) (hP : 1 ≤ P) (prices : List ℚ) :
    (∀ k, k < prices.length → k < P → (rsiOutputs P prices)[k]? = some none) ∧
      (∀ k, k < prices.length → P ≤ k →
        ∃ v, (rsiOutputs P prices)[k]? = some (some v) ∧ 0 ≤ v ∧ v ≤ 100) ∧
      (List.Chain' (· < ·) prices →
        ∀ k, k < prices.length → P ≤ k →
          (rsiOutputs P prices)[k]? = some (some 100)) := by
  cases prices with
  | nil =>
      refine ⟨?_, ?_, ?_⟩
      · intro k hk
        simp at hk
      · intro k hk
        simp at hk
      · intro _ k hk
        simp at hk
  | cons p ps =>
      have hout : rsiOutputs P (p :: ps) =
          none :: (rsiRun { period := P, gains := [], losses := [], lastPrice := some p } ps).2 := by
        simp [rsiOutputs, rsiRun, RSI.update, RSI.init]
      have haux := rsiRun_outputs_aux P hP ps
        { period := P, gains := [], losses := [], lastPrice := some p }
        rfl (by simp) rfl (by simp) (by simp) ⟨p, rfl⟩
      refine ⟨?_, ?_, ?_⟩
      · intro k hk hkP
        rw [hout]
        cases k with
        | zero => simp
        | succ k =>
            simp only [List.getElem?_cons_succ]
            have hk' : k < ps.length := by
              simp only [List.length_cons] at hk
              omega
            exact (haux k hk').1 (by simp only [List.length_nil]; omega)
      · intro k hk hkP
        rw [hout]
        cases k with
        | zero => omega
        | succ k =>
            simp only [List.getElem?_cons_succ]
            have hk' : k < ps.length := by
              simp only [List.length_cons] at hk
              omega
            exact (haux k hk').2 (by simp only [List.length_nil]; omega)
      · intro hch k hk hkP
        have hpw : List.Pairwise (· < ·) (p :: ps) :=
          List.chain'_iff_pairwise.mp hch
        have hpw' := List.pairwise_cons.mp hpw
        have hall := rsiRun_allGains_aux ps
          { period := P, gains := [], losses := [], lastPrice := some p }
          p rfl (by simp) rfl (by simp) hpw'.1 hpw'.2
        rw [hout]
        cases k with
        | zero => omega
        | succ k =>
            simp only [List.getElem?_cons_succ]
            have hk' : k < ps.length := by
              simp only [List.length_cons] at hk
              omega
            obtain ⟨v, hv, -, -⟩ := (haux k hk').2 (by simp only [List.length_nil]; omega)
            have h100 := hall k v hv
            rw [hv, h100]

/-- Witness for the amended C2, at `P = 1` and prices `[1, 2]`. -/
theorem rsi_spec_amended_witness :
    1 ≤ 1 ∧
      ((∀ k, k < ([(1 : ℚ), 2] : List ℚ).length → k < 1 →
          (rsiOutputs 1 [(1 : ℚ), 2])[k]? = some none) ∧
        (∀ k, k < ([(1 : ℚ), 2] : List ℚ).length → 1 ≤ k →
          ∃ v, (rsiOutputs 1 [(1 : ℚ), 2])[k]? = some (some v) ∧ 0 ≤ v ∧ v ≤ 100) ∧
        (List.Chain' (· < ·) [(1 : ℚ), 2] →
          ∀ k, k < ([(1 : ℚ), 2] : List ℚ).length → 1 ≤ k →
            (rsiOutputs 1 [(1 : ℚ), 2])[k]? = some (some 100))) :=
  ⟨le_refl 1, rsi_spec_amended 1 (le_refl 1) [(1 : ℚ), 2]⟩

namespace IndicatorWorker

/-- `candleRunsAux` always yields at least the current run. -/
theorem candleRunsAux_ne_nil (tfMs : Nat) :
    ∀ (ts currun : List Tick) (st : Nat), candleRunsAux tfMs currun ts st ≠ [] := by
  intro ts
  induction ts with
  | nil =>
      intro currun st
      simp [candleRunsAux]
  | cons t ts ih =>
      intro currun st
      simp only [candleRunsAux]
      split_ifs
      · exact ih _ _
      · simp

/-- A fresh candle tracks the singleton run of its first tick. -/
theorem createNewCandle_tracks (tfMs : Nat) (t : Tick) :
    CandleTracks tfMs [t] (createNewCandle t (getCandleStart t.ts tfMs) tfMs) := by
  refine ⟨?_, ?_, ?_, ?_, ?_, ?_, ?_, ?_, ?_, ?_, ?_⟩ <;>
    simp [createNewCandle]

/-- `updateCandle` extends the tracked run by the absorbed tick, provided the
tick falls in the candle's period. -/
theorem updateCandle_tracks (tfMs : Nat) (run : List Tick) (c : Candle) (t : Tick)
    (h : CandleTracks tfMs run c) (ht : getCandleStart t.ts tfMs = c.ts_open) :
    CandleTracks tfMs (run ++ [t]) (updateCandle c t) := by
  obtain ⟨hne, hopen, hstart, hclose, hbounds, halign, hlo, hoh, hlc, hch, hspan⟩ := h
  rcases run with _ | ⟨t0, run'⟩
  · exact absurd rfl hne
  refine ⟨by simp, ?_, ?_, ?_, ?_, ?_, ?_, ?_, ?_, ?_, ?_⟩
  · intro x hx
    simp only [List.cons_append, List.head?_cons, Option.mem_def,
      Option.some.injEq] at hx
    subst hx
    exact hopen t0 rfl
  · intro x hx
    simp only [List.cons_append, List.head?_cons, Option.mem_def,
      Option.some.injEq] at hx
    subst hx
    exact hstart t0 rfl
  · intro x hx
    rw [List.getLast?_concat] at hx
    simp only [Option.mem_def, Option.some.injEq] at hx
    subst hx
    rfl
  · intro x hx
    rcases List.mem_append.mp hx with hmem | hmem
    · have hb := hbounds x hmem
      exact ⟨le_trans (min_le_left _ _) hb.1, le_trans hb.2 (le_max_left _ _)⟩
    · rw [List.mem_singleton] at hmem
      subst hmem
      exact ⟨min_le_right _ _, le_max_right _ _⟩
  · intro x hx
    rcases List.mem_append.mp hx with hmem | hmem
    · exact halign x hmem
    · rw [List.mem_singleton] at hmem
      subst hmem
      exact ht
  · exact le_trans (min_le_left _ _) hlo
  · exact le_trans hoh (le_max_left _ _)
  · exact min_le_right _ _
  · exact le_max_right _ _
  · exact hspan

/-- The completed candles of a builder run, starting from a current candle
tracking `currun`, correspond one-to-one (via `CandleTracks`) to all
consecutive candle-start groups except the still-open last one. -/
theorem runBuilder_tracks (tfMs : Nat) :
    ∀ (ts : List Tick) (c : Candle) (currun : List Tick),
      CandleTracks tfMs currun c →
      List.Forall₂ (CandleTracks tfMs)
        ((candleRunsAux tfMs currun ts c.ts_open).dropLast)
        ((runBuilder tfMs (some c) ts).2) := by
  intro ts
  induction ts with
  | nil =>
      intro c currun h
      simp [candleRunsAux, runBuilder]
  | cons t ts ih =>
      intro c currun h
      simp only [candleRunsAux, runBuilder, buildCandleStep]
      by_cases hcs : getCandleStart t.ts tfMs = c.ts_open
      · rw [if_pos hcs, if_neg (fun hne => hne hcs.symm)]
        simp only [Option.toList_none, List.nil_append]
        exact ih (updateCandle c t) (currun ++ [t]) (updateCandle_tracks tfMs currun c t h hcs)
      · rw [if_neg hcs, if_pos (fun heq => hcs heq.symm)]
        simp only [Option.toList_some, List.singleton_append]
        have hdl : (currun :: candleRunsAux tfMs [t] ts (getCandleStart t.ts tfMs)).dropLast =
            currun :: (candleRunsAux tfMs [t] ts (getCandleStart t.ts tfMs)).dropLast := by
          rcases hl : candleRunsAux tfMs [t] ts (getCandleStart t.ts tfMs) with _ | ⟨x, xs⟩
          · exact absurd hl (candleRunsAux_ne_nil tfMs ts [t] _)
          · simp [List.dropLast]
        rw [hdl]
        exact List.Forall₂.cons h (ih (createNewCandle t (getCandleStart t.ts tfMs) tfMs) [t]
          (createNewCandle_tracks tfMs t))

/-- `getCandleStart` computes `floor(ts / timeframeMs) * timeframeMs`. -/
theorem getCandleStart_eq_div_mul (ts tfMs : Nat) :
    getCandleStart ts tfMs = ts / tfMs * tfMs := by
  have h := Nat.div_add_mod ts tfMs
  unfold getCandleStart
  calc ts - ts % tfMs = tfMs * (ts / tfMs) := by omega
    _ = ts / tfMs * tfMs := Nat.mul_comm _ _

/-- A fresh candle satisfies the local candle invariant. -/
theorem createNewCandle_ok (tfMs : Nat) (t : Tick) :
    CandleOk tfMs (createNewCandle t (getCandleStart t.ts tfMs) tfMs) := by
  refine ⟨le_refl _, le_refl _, le_refl _, le_refl _, rfl, ?_⟩
  show getCandleStart t.ts tfMs % tfMs = 0
  rw [getCandleStart_eq_div_mul]
  exact Nat.mul_mod_left _ _

/-- `updateCandle` preserves the local candle invariant. -/
theorem updateCandle_ok (tfMs : Nat) (c : Candle) (t : Tick)
    (h : CandleOk tfMs c) : CandleOk tfMs (updateCandle c t) := by
  obtain ⟨h1, h2, h3, h4, h5, h6⟩ := h
  exact ⟨le_trans (min_le_left _ _) h1, le_trans h2 (le_max_left _ _),
    min_le_right _ _, le_max_right _ _, h5, h6⟩

/-- Every completed candle of a builder run satisfies the local candle
invariant, provided the current candle (if any) does. -/
theorem runBuilder_completed_ok (tfMs : Nat) :
    ∀ (ts : List Tick) (cur : Option Candle),
      (∀ c, cur = some c → CandleOk tfMs c) →
      ∀ c ∈ (runBuilder tfMs cur ts).2, CandleOk tfMs c := by
  intro ts
  induction ts with
  | nil =>
      intro cur _ c hc
      simp [runBuilder] at hc
  | cons t ts ih =>
      intro cur hcur c hc
      rcases cur with _ | cc
      · simp only [runBuilder, buildCandleStep, Option.toList_none,
          List.nil_append] at hc
        exact ih _ (fun d hd => by
          rw [Option.some.injEq] at hd
          rw [← hd]
          exact createNewCandle_ok tfMs t) c hc
      · simp only [runBuilder, buildCandleStep] at hc
        by_cases hcs : cc.ts_open ≠ getCandleStart t.ts tfMs
        · rw [if_pos hcs] at hc
          simp only [Option.toList_some, List.singleton_append, List.mem_cons] at hc
          rcases hc with hc | hc
          · rw [hc]
            exact hcur cc rfl
          · exact ih _ (fun d hd => by
              rw [Option.some.injEq] at hd
              rw [← hd]
              exact createNewCandle_ok tfMs t) c hc
        · rw [if_neg hcs] at hc
          simp only [Option.toList_none, List.nil_append] at hc
          exact ih _ (fun d hd => by
            rw [Option.some.injEq] at hd
            rw [← hd]
            exact updateCandle_ok tfMs cc t (hcur cc rfl)) c hc

end IndicatorWorker

/-- C6: every completed candle the builder produces from a tick sequence
tracks the consecutive group of ticks of its period — `low ≤ open ≤ high`,
`low ≤ close ≤ high`, `open` = first tick price, `close` = most recent tick
price, `high`/`low` bound every tick price of the period,
`periodEnd - periodStart = timeframeMs`, and the period start is
`floor(tickTime / timeframeMs) * timeframeMs`, aligned to the timeframe. -/
theorem candleBuilder_spec (timeframeMs : Nat) (ticks : List Tick) :
    List.Forall₂ (IndicatorWorker.CandleTracks timeframeMs)
        ((IndicatorWorker.candleRuns timeframeMs ticks).dropLast)
        (IndicatorWorker.completedCandles timeframeMs ticks) ∧
      (∀ c ∈ IndicatorWorker.completedCandles timeframeMs ticks,
        c.low ≤ c.open_ ∧ c.open_ ≤ c.high ∧ c.low ≤ c.close ∧ c.close ≤ c.high ∧
          c.ts_close - c.ts_open = timeframeMs ∧ c.ts_open % timeframeMs = 0) ∧
      (∀ ts : Nat,
        IndicatorWorker.getCandleStart ts timeframeMs = ts / timeframeMs * timeframeMs) := by
  refine ⟨?_, ?_, fun ts => IndicatorWorker.getCandleStart_eq_div_mul ts timeframeMs⟩
  · cases ticks with
    | nil => simp [IndicatorWorker.candleRuns, IndicatorWorker.completedCandles,
        IndicatorWorker.runBuilder]
    | cons t ts =>
        have h0 := IndicatorWorker.runBuilder_tracks timeframeMs ts
          (IndicatorWorker.createNewCandle t
            (IndicatorWorker.getCandleStart t.ts timeframeMs) timeframeMs)
          [t] (IndicatorWorker.createNewCandle_tracks timeframeMs t)
        simpa [IndicatorWorker.candleRuns, IndicatorWorker.completedCandles,
          IndicatorWorker.runBuilder, IndicatorWorker.buildCandleStep] using h0
  · intro c hc
    have h := IndicatorWorker.runBuilder_completed_ok timeframeMs ticks none
      (fun d hd => by cases hd) c hc
    obtain ⟨h1, h2, h3, h4, h5, h6⟩ := h
    exact ⟨h1, h2, h3, h4, by omega, h6⟩

/-- Witness for C6: two ticks a minute apart complete one candle whose fields
satisfy the claimed invariants. -/
theorem candleBuilder_spec_witness :
    IndicatorWorker.completedCandles 60000
        [⟨"EURUSD", 1000, 5⟩, ⟨"EURUSD", 61000, 7⟩] =
        [⟨"EURUSD", "1m", 5, 5, 5, 5, 0, 60000, 1, 1⟩] ∧
      ((⟨"EURUSD", "1m", 5, 5, 5, 5, 0, 60000, 1, 1⟩ : Candle).low ≤
          (⟨"EURUSD", "1m", 5, 5, 5, 5, 0, 60000, 1, 1⟩ : Candle).open_ ∧
        (⟨"EURUSD", "1m", 5, 5, 5, 5, 0, 60000, 1, 1⟩ : Candle).open_ ≤
          (⟨"EURUSD", "1m", 5, 5, 5, 5, 0, 60000, 1, 1⟩ : Candle).high ∧
        (⟨"EURUSD", "1m", 5, 5, 5, 5, 0, 60000, 1, 1⟩ : Candle).low ≤
          (⟨"EURUSD", "1m", 5, 5, 5, 5, 0, 60000, 1, 1⟩ : Candle).close ∧
        (⟨"EURUSD", "1m", 5, 5, 5, 5, 0, 60000, 1, 1⟩ : Candle).close ≤
          (⟨"EURUSD", "1m", 5, 5, 5, 5, 0, 60000, 1, 1⟩ : Candle).high ∧
        (⟨"EURUSD", "1m", 5, 5, 5, 5, 0, 60000, 1, 1⟩ : Candle).ts_close -
            (⟨"EURUSD", "1m", 5, 5, 5, 5, 0, 60000, 1, 1⟩ : Candle).ts_open = 60000 ∧
        (⟨"EURUSD", "1m", 5, 5, 5, 5, 0, 60000, 1, 1⟩ : Candle).ts_open % 60000 = 0) := by
  have hlist : IndicatorWorker.completedCandles 60000
      [⟨"EURUSD", 1000, 5⟩, ⟨"EURUSD", 61000, 7⟩] =
      [⟨"EURUSD", "1m", 5, 5, 5, 5, 0, 60000, 1, 1⟩] := by
    norm_num [IndicatorWorker.completedCandles, IndicatorWorker.runBuilder,
      IndicatorWorker.buildCandleStep, IndicatorWorker.createNewCandle,
      IndicatorWorker.updateCandle, IndicatorWorker.getCandleStart,
      IndicatorWorker.getMsToTimeframe, IndicatorWorker.timeframesTable,
      List.lookup]
    decide
  refine ⟨hlist,
    (candleBuilder_spec 60000 [⟨"EURUSD", 1000, 5⟩, ⟨"EURUSD", 61000, 7⟩]).2.1 _ ?_⟩
  rw [hlist]
  exact List.mem_singleton_self _

namespace SchedulerModel

/-- Erasing a key makes its lookup fail. -/
theorem lookupA_eraseA_self (l : List (Nat × Nat)) (k : Nat) :
    lookupA (eraseA l k) k = none := by
  induction l with
  | nil => rfl
  | cons p ps ih =>
      by_cases h : p.1 = k
      · simpa [eraseA, h] using ih
      · simp [eraseA, lookupA, h, ih]

/-- Erasing one key leaves other lookups unchanged. -/
theorem lookupA_eraseA_ne (l : List (Nat × Nat)) (k k' : Nat) (h : k' ≠ k) :
    lookupA (eraseA l k) k' = lookupA l k' := by
  induction l with
  | nil => rfl
  | cons p ps ih =>
      by_cases hp : p.1 = k
      · simp [eraseA, lookupA, hp, h, Ne.symm h, ih]
      · by_cases hp' : p.1 = k'
        · simp [eraseA, lookupA, hp, hp', h, Ne.symm h]
        · simp [eraseA, lookupA, hp, hp', h, ih]

/-- Members of an erased map are members of the original with a different
key. -/
theorem mem_eraseA (l : List (Nat × Nat)) (k : Nat) (p : Nat × Nat)
    (h : p ∈ eraseA l k) : p ∈ l ∧ p.1 ≠ k := by
  induction l with
  | nil => cases h
  | cons q qs ih =>
      by_cases hq : q.1 = k
      · rw [eraseA, if_pos hq] at h
        have := ih h
        exact ⟨List.mem_cons_of_mem q this.1, this.2⟩
      · rw [eraseA, if_neg hq] at h
        rcases List.mem_cons.mp h with h | h
        · subst h
          exact ⟨List.mem_cons_self _ _, hq⟩
        · have := ih h
          exact ⟨List.mem_cons_of_mem q this.1, this.2⟩

/-- A successful lookup exhibits a member. -/
theorem lookupA_mem (l : List (Nat × Nat)) (k v : Nat)
    (h : lookupA l k = some v) : (k, v) ∈ l := by
  induction l with
  | nil => cases h
  | cons p ps ih =>
      by_cases hp : p.1 = k
      · rw [lookupA, if_pos hp] at h
        rw [Option.some.injEq] at h
        have : p = (k, v) := by
          rcases p with ⟨a, b⟩
          simp only at hp h
          rw [hp, h]
        rw [← this]
        exact List.mem_cons_self _ _
      · rw [lookupA, if_neg hp] at h
        exact List.mem_cons_of_mem p (ih h)

/-- The initial scheduler state is a reachable state. -/
theorem Inv_initState : Inv initState := by decide

/-- Every event preserves the reachable-state invariant. -/
theorem Inv_step (s : SchedState) (e : Event) (hInv : Inv s) : Inv (step s e) := by
  obtain ⟨hA, hC, hD, hE⟩ := hInv
  cases e with
  | schedule =>
      refine ⟨?_, ?_, ?_, hE⟩
      · intro p hp
        simp only [step, armJob] at hp ⊢
        rcases List.mem_cons.mp hp with h | h
        · subst h
          simp only [lookupA, if_pos rfl]
          exact ⟨rfl, by omega, by omega⟩
        · obtain ⟨hm, hne⟩ := mem_eraseA _ _ _ h
          obtain ⟨h1, h2, h3⟩ := hA p hm
          rw [lookupA, if_neg (by omega), lookupA_eraseA_ne _ _ _ (by omega)]
          exact ⟨h1, by omega, by omega⟩
      · intro j hj
        simp only [step, armJob] at hj ⊢
        have := hC j hj
        omega
      · intro j hj p hp
        simp only [step, armJob] at hj hp
        have hjlt := hC j hj
        rcases List.mem_cons.mp hp with h | h
        · subst h
          simp only
          omega
        · exact (hD j hj) p (mem_eraseA _ _ _ h).1
  | fire t =>
      cases hl : lookupA s.timers t with
      | none =>
          simp only [step, hl]
          exact ⟨hA, hC, hD, hE⟩
      | some j =>
          have hmem := lookupA_mem _ _ _ hl
          have hAt := hA _ hmem
          simp only [step, hl]
          refine ⟨?_, ?_, ?_, ?_⟩
          · intro p hp
            exact hA p (mem_eraseA _ _ _ hp).1
          · intro j' hj'
            rcases List.mem_cons.mp hj' with h | h
            · subst h
              exact hAt.2.2
            · exact hC j' h
          · intro j' hj' p hp
            obtain ⟨hm, hne⟩ := mem_eraseA _ _ _ hp
            rcases List.mem_cons.mp hj' with h | h
            · subst h
              intro hpj
              have := (hA p hm).1
              rw [hpj, hAt.1] at this
              rw [Option.some.injEq] at this
              exact hne this.symm
            · exact hD j' h p hm
          · refine List.nodup_cons.mpr ⟨?_, hE⟩
            intro hjr
            exact hD j hjr (t, j) hmem rfl
  | rearm j =>
      by_cases hr : j ∈ s.rearms
      · by_cases hjs : (lookupA s.jobs j).isSome
        · simp only [step, if_pos hr, if_pos hjs]
          refine ⟨?_, ?_, ?_, ?_⟩
          · intro p hp
            simp only [armJob] at hp ⊢
            rcases List.mem_cons.mp hp with h | h
            · subst h
              simp only [lookupA, if_pos rfl]
              exact ⟨rfl, by omega, hC j hr⟩
            · obtain ⟨hm, hnt⟩ := mem_eraseA _ _ _ h
              obtain ⟨h1, h2, h3⟩ := hA p hm
              have hpj : p.2 ≠ j := hD j hr p hm
              rw [lookupA, if_neg (by omega), lookupA_eraseA_ne _ _ _ (by omega)]
              exact ⟨h1, by omega, h3⟩
          · intro j' hj'
            simp only [armJob] at hj' ⊢
            exact hC j' (List.mem_of_mem_erase hj')
          · intro j' hj' p hp
            simp only [armJob] at hj' hp
            have hj'mem := List.mem_of_mem_erase hj'
            have hj'ne : j' ≠ j := (List.Nodup.mem_erase_iff hE).mp hj' |>.1
            rcases List.mem_cons.mp hp with h | h
            · subst h
              simp only
              omega
            · exact hD j' hj'mem p (mem_eraseA _ _ _ h).1
          · simp only [armJob]
            exact hE.erase j
        · simp only [step, if_pos hr, if_neg hjs]
          refine ⟨hA, ?_, ?_, hE.erase j⟩
          · intro j' hj'
            exact hC j' (List.mem_of_mem_erase hj')
          · intro j' hj' p hp
            exact hD j' (List.mem_of_mem_erase hj') p hp
      · simp only [step, if_neg hr]
        exact ⟨hA, hC, hD, hE⟩
  | cancel j =>
      cases hl : lookupA s.jobs j with
      | none =>
          simp only [step, cancelJob, hl]
          exact ⟨hA, hC, hD, hE⟩
      | some tid =>
          simp only [step, cancelJob, hl]
          refine ⟨?_, hC, ?_, hE⟩
          · intro p hp
            obtain ⟨hm, hne⟩ := mem_eraseA _ _ _ hp
            obtain ⟨h1, h2, h3⟩ := hA p hm
            have hpj : p.2 ≠ j := by
              intro hpj
              rw [hpj, hl] at h1
              rw [Option.some.injEq] at h1
              exact hne h1.symm
            rw [lookupA_eraseA_ne _ _ _ hpj]
            exact ⟨h1, h2, h3⟩
          · intro j' hj' p hp
            exact hD j' hj' p (mem_eraseA _ _ _ hp).1

/-- In a reachable state, `cancelJob` leaves the job dead: no `jobs` entry and
no pending timer (the timer is invalidated synchronously). -/
theorem cancelJob_dead (s : SchedState) (j : Nat) (hInv : Inv s) :
    dead (cancelJob s j) j := by
  obtain ⟨hA, hC, hD, hE⟩ := hInv
  cases hl : lookupA s.jobs j with
  | none =>
      simp only [cancelJob, hl]
      refine ⟨hl, ?_⟩
      intro p hp hpj
      have := (hA p hp).1
      rw [hpj, hl] at this
      cases this
  | some tid =>
      simp only [cancelJob, hl]
      refine ⟨lookupA_eraseA_self _ _, ?_⟩
      intro p hp hpj
      obtain ⟨hm, hne⟩ := mem_eraseA _ _ _ hp
      have := (hA p hm).1
      rw [hpj, hl] at this
      rw [Option.some.injEq] at this
      exact hne this.symm

/-- A dead job stays dead across any single event, its firing count never
grows, and its id stays allocated below the fresh counter. -/
theorem dead_step (s : SchedState) (j : Nat) (e : Event) (hInv : Inv s)
    (hd : dead s j) (hj : j < s.nextJob) :
    dead (step s e) j ∧ j < (step s e).nextJob ∧
      (step s e).fired.count j = s.fired.count j := by
  obtain ⟨hA, hC, hD, hE⟩ := hInv
  obtain ⟨hdj, hdt⟩ := hd
  cases e with
  | schedule =>
      refine ⟨⟨?_, ?_⟩, ?_, rfl⟩
      · simp only [step, armJob]
        rw [lookupA, if_neg (by omega), lookupA_eraseA_ne _ _ _ (by omega)]
        exact hdj
      · intro p hp
        simp only [step, armJob] at hp
        rcases List.mem_cons.mp hp with h | h
        · subst h
          simp only
          omega
        · exact hdt p (mem_eraseA _ _ _ h).1
      · simp only [step, armJob]
        omega
  | fire t =>
      cases hl : lookupA s.timers t with
      | none =>
          simp only [step, hl]
          exact ⟨⟨hdj, hdt⟩, hj, trivial⟩
      | some j' =>
          have hmem := lookupA_mem _ _ _ hl
          have hj'ne : j' ≠ j := hdt (t, j') hmem
          simp only [step, hl]
          refine ⟨⟨hdj, ?_⟩, hj, ?_⟩
          · intro p hp
            exact hdt p (mem_eraseA _ _ _ hp).1
          · simp [List.count_append, List.count_cons, List.count_nil, hj'ne]
  | rearm j' =>
      by_cases hr : j' ∈ s.rearms
      · by_cases hjs : (lookupA s.jobs j').isSome
        · have hj'ne : j' ≠ j := by
            intro h
            rw [h, hdj] at hjs
            cases hjs
          simp only [step, if_pos hr, if_pos hjs]
          refine ⟨⟨?_, ?_⟩, hj, rfl⟩
          · simp only [armJob]
            rw [lookupA, if_neg (by omega), lookupA_eraseA_ne _ _ _ (by omega)]
            exact hdj
          · intro p hp
            simp only [armJob] at hp
            rcases List.mem_cons.mp hp with h | h
            · subst h
              simp only
              omega
            · exact hdt p (mem_eraseA _ _ _ h).1
        · simp only [step, if_pos hr, if_neg hjs]
          exact ⟨⟨hdj, hdt⟩, hj, trivial⟩
      · simp only [step, if_neg hr]
        exact ⟨⟨hdj, hdt⟩, hj, trivial⟩
  | cancel j' =>
      cases hl : lookupA s.jobs j' with
      | none =>
          simp only [step, cancelJob, hl]
          exact ⟨⟨hdj, hdt⟩, hj, trivial⟩
      | some tid =>
          simp only [step, cancelJob, hl]
          refine ⟨⟨?_, ?_⟩, hj, trivial⟩
          · by_cases h : j = j'
            · subst h
              exact lookupA_eraseA_self _ _
            · rw [lookupA_eraseA_ne _ _ _ h]
              exact hdj
          · intro p hp
            exact hdt p (mem_eraseA _ _ _ hp).1

/-- A dead job never fires again over any event sequence. -/
theorem run_dead (s : SchedState) (j : Nat) (evs : List Event) (hInv : Inv s)
    (hd : dead s j) (hj : j < s.nextJob) :
    dead (run s evs) j ∧ (run s evs).fired.count j = s.fired.count j := by
  induction evs generalizing s with
  | nil => exact ⟨hd, rfl⟩
  | cons e evs ih =>
      have hInv' := Inv_step s e hInv
      obtain ⟨hd', hj', hcount⟩ := dead_step s j e hInv hd hj
      have hres := ih (step s e) hInv' hd' hj'
      exact ⟨hres.1, hres.2.trans hcount⟩

end SchedulerModel

/-- C5: in every reachable scheduler state, once `cancelJob(jobId)` has been
called the job's callback is never invoked again: the cancellation itself
fires nothing, it synchronously removes the job's map entry and pending
timer, and under every subsequent event sequence — in particular one
containing the guarded re-arm step of a fire callback that returned just
before the cancellation — the count of firings logged for that job id never
grows. -/
theorem cancelJob_no_further_firings (s : SchedulerModel.SchedState) (j : Nat)
    (evs : List SchedulerModel.Event) (hInv : SchedulerModel.Inv s)
    (hj : j < s.nextJob) :
    (SchedulerModel.step s (SchedulerModel.Event.cancel j)).fired = s.fired ∧
      SchedulerModel.dead (SchedulerModel.step s (SchedulerModel.Event.cancel j)) j ∧
      (SchedulerModel.run (SchedulerModel.step s (SchedulerModel.Event.cancel j))
          evs).fired.count j = s.fired.count j := by
  have hInv' := SchedulerModel.Inv_step s (SchedulerModel.Event.cancel j) hInv
  have hdead : SchedulerModel.dead
      (SchedulerModel.step s (SchedulerModel.Event.cancel j)) j :=
    SchedulerModel.cancelJob_dead s j hInv
  have hfired : (SchedulerModel.step s (SchedulerModel.Event.cancel j)).fired = s.fired := by
    simp only [SchedulerModel.step, SchedulerModel.cancelJob]
    cases SchedulerModel.lookupA s.jobs j <;> rfl
  have hnj : (SchedulerModel.step s (SchedulerModel.Event.cancel j)).nextJob = s.nextJob := by
    simp only [SchedulerModel.step, SchedulerModel.cancelJob]
    cases SchedulerModel.lookupA s.jobs j <;> rfl
  have hrun := SchedulerModel.run_dead
    (SchedulerModel.step s (SchedulerModel.Event.cancel j)) j evs hInv' hdead
    (by rw [hnj]; exact hj)
  refine ⟨hfired, hdead, hrun.2.trans ?_⟩
  rw [hfired]

/-- Witness for C5: schedule a job (id 0), let its timer fire (leaving its
re-arm step pending), cancel it in that window, then replay a re-arm for it,
a fresh schedule and another timer fire: job 0's firing count stays 1. -/
theorem cancelJob_no_further_firings_witness :
    SchedulerModel.Inv
        (SchedulerModel.run SchedulerModel.initState
          [SchedulerModel.Event.schedule, SchedulerModel.Event.fire 0]) ∧
      0 < (SchedulerModel.run SchedulerModel.initState
          [SchedulerModel.Event.schedule, SchedulerModel.Event.fire 0]).nextJob ∧
      ((SchedulerModel.step
            (SchedulerModel.run SchedulerModel.initState
              [SchedulerModel.Event.schedule, SchedulerModel.Event.fire 0])
            (SchedulerModel.Event.cancel 0)).fired =
          (SchedulerModel.run SchedulerModel.initState
            [SchedulerModel.Event.schedule, SchedulerModel.Event.fire 0]).fired ∧
        SchedulerModel.dead
          (SchedulerModel.step
            (SchedulerModel.run SchedulerModel.initState
              [SchedulerModel.Event.schedule, SchedulerModel.Event.fire 0])
            (SchedulerModel.Event.cancel 0)) 0 ∧
        (SchedulerModel.run
              (SchedulerModel.step
                (SchedulerModel.run SchedulerModel.initState
                  [SchedulerModel.Event.schedule, SchedulerModel.Event.fire 0])
                (SchedulerModel.Event.cancel 0))
              [SchedulerModel.Event.rearm 0, SchedulerModel.Event.schedule,
                SchedulerModel.Event.fire 1, SchedulerModel.Event.rearm 0]).fired.count 0 =
          (SchedulerModel.run SchedulerModel.initState
            [SchedulerModel.Event.schedule, SchedulerModel.Event.fire 0]).fired.count 0) :=
  ⟨by decide, by decide,
    cancelJob_no_further_firings _ 0 _ (by decide) (by decide)⟩

end Mamora
